import Mathlib

/-!
Shallow embedding of `src/bpe_tokenizer_wikitext.py` (a byte-pair-encoding
tokenizer) and proofs about it.

Python strings are modelled as lists of Unicode code points (`List Nat`),
byte strings as lists of byte values (`List Nat`, each `< 256`).  Python
dicts (insertion ordered) are modelled as association lists to which fresh
keys are appended at the end.  Fallible operations return `Option` /
`Except`; the decoder's `while` loop, which can diverge on corrupted merge
maps, takes an explicit fuel argument (`none` = still running after `fuel`
iterations).
-/

/-- `str.encode("utf-8")` for one code point: the UTF-8 byte sequence of `c`. -/
def utf8EncodeChar (c : Nat) : List Nat :=
  if c < 0x80 then [c]
  else if c < 0x800 then [0xC0 + c / 0x40, 0x80 + c % 0x40]
  else if c < 0x10000 then
    [0xE0 + c / 0x1000, 0x80 + (c / 0x40) % 0x40, 0x80 + c % 0x40]
  else
    [0xF0 + c / 0x40000, 0x80 + (c / 0x1000) % 0x40, 0x80 + (c / 0x40) % 0x40, 0x80 + c % 0x40]

/-- `text.encode("utf-8")`: concatenation of the per-character byte sequences. -/
def utf8Encode (s : List Nat) : List Nat :=
  s.flatMap utf8EncodeChar

/-- A code point Python's strict UTF-8 codec accepts: below 0x110000 and not a surrogate. -/
def ValidChar (c : Nat) : Prop := c < 0x110000 ∧ ¬(0xD800 ≤ c ∧ c ≤ 0xDFFF)

instance (c : Nat) : Decidable (ValidChar c) := by unfold ValidChar; infer_instance

/-- A Python string all of whose code points the strict UTF-8 codec accepts. -/
def ValidStr (s : List Nat) : Prop := ∀ c ∈ s, ValidChar c

instance (s : List Nat) : Decidable (ValidStr s) := by unfold ValidStr; infer_instance

/-- `bytes(...).decode("utf-8")` with the default strict error handler:
returns the code points, or `none` on any malformed / overlong / surrogate /
out-of-range sequence (Python raises `UnicodeDecodeError` there).
Lead-byte ranges and code-point range checks together are equivalent to
Python's strict UTF-8 acceptance conditions. -/
def utf8Decode (l : List Nat) : Option (List Nat) :=
  match l with
  | [] => some []
  | b0 :: bs =>
    if b0 < 0x80 then
      (utf8Decode bs).map (fun s => b0 :: s)
    else if b0 < 0xE0 then
      let b1 := bs.getD 0 0
      if 1 ≤ bs.length ∧ 0xC2 ≤ b0 ∧ 0x80 ≤ b1 ∧ b1 < 0xC0 then
        (utf8Decode (bs.drop 1)).map (fun s => ((b0 - 0xC0) * 0x40 + (b1 - 0x80)) :: s)
      else none
    else if b0 < 0xF0 then
      let b1 := bs.getD 0 0
      let b2 := bs.getD 1 0
      let c := (b0 - 0xE0) * 0x1000 + (b1 - 0x80) * 0x40 + (b2 - 0x80)
      if 2 ≤ bs.length ∧ (0x80 ≤ b1 ∧ b1 < 0xC0) ∧ (0x80 ≤ b2 ∧ b2 < 0xC0) ∧
          0x800 ≤ c ∧ ¬(0xD800 ≤ c ∧ c ≤ 0xDFFF) then
        (utf8Decode (bs.drop 2)).map (fun s => c :: s)
      else none
    else
      let b1 := bs.getD 0 0
      let b2 := bs.getD 1 0
      let b3 := bs.getD 2 0
      let c := (b0 - 0xF0) * 0x40000 + (b1 - 0x80) * 0x1000 + (b2 - 0x80) * 0x40 + (b3 - 0x80)
      if 3 ≤ bs.length ∧ b0 < 0xF8 ∧ (0x80 ≤ b1 ∧ b1 < 0xC0) ∧ (0x80 ≤ b2 ∧ b2 < 0xC0) ∧
          (0x80 ≤ b3 ∧ b3 < 0xC0) ∧ 0x10000 ≤ c ∧ c ≤ 0x10FFFF then
        (utf8Decode (bs.drop 3)).map (fun s => c :: s)
      else none
termination_by l.length
decreasing_by
  all_goals
    simp only [List.length_drop, List.length_cons]
    omega

theorem utf8EncodeChar_lt_256 (c : Nat) (hc : ValidChar c) :
    ∀ b ∈ utf8EncodeChar c, b < 256 := by
  obtain ⟨h1, _⟩ := hc
  intro b hb
  unfold utf8EncodeChar at hb
  split at hb
  · simp at hb; omega
  · split at hb
    · simp at hb
      rcases hb with h | h <;> omega
    · split at hb
      · simp at hb
        rcases hb with h | h | h <;> omega
      · simp at hb
        have : c / 0x40000 < 5 := by omega
        rcases hb with h | h | h | h <;> omega

theorem utf8Decode_encodeChar (c : Nat) (hc : ValidChar c) (bs : List Nat) :
    utf8Decode (utf8EncodeChar c ++ bs) = (utf8Decode bs).map (fun s => c :: s) := by
  obtain ⟨h1, h2⟩ := hc
  unfold utf8EncodeChar
  by_cases ha : c < 0x80
  · simp only [if_pos ha, List.cons_append, List.nil_append]
    rw [utf8Decode]
    rw [if_pos ha]
  · by_cases hb : c < 0x800
    · simp only [if_neg ha, if_pos hb, List.cons_append, List.nil_append]
      rw [utf8Decode]
      have hd1 : ¬ (0xC0 + c / 0x40 < 0x80) := by omega
      have hd2 : 0xC0 + c / 0x40 < 0xE0 := by omega
      rw [if_neg hd1, if_pos hd2]
      simp only [List.getD_cons_zero, List.length_cons, List.drop_succ_cons, List.drop_zero]
      have hg : 1 ≤ bs.length + 1 ∧ 0xC2 ≤ 0xC0 + c / 0x40 ∧ 0x80 ≤ 0x80 + c % 0x40 ∧
          0x80 + c % 0x40 < 0xC0 := ⟨by omega, by omega, by omega, by omega⟩
      rw [if_pos hg]
      have : (0xC0 + c / 0x40 - 0xC0) * 0x40 + (0x80 + c % 0x40 - 0x80) = c := by omega
      rw [this]
    · by_cases hcc : c < 0x10000
      · simp only [if_neg ha, if_neg hb, if_pos hcc, List.cons_append, List.nil_append]
        rw [utf8Decode]
        have hd1 : ¬ (0xE0 + c / 0x1000 < 0x80) := by omega
        have hd2 : ¬ (0xE0 + c / 0x1000 < 0xE0) := by omega
        have hd3 : 0xE0 + c / 0x1000 < 0xF0 := by omega
        rw [if_neg hd1, if_neg hd2, if_pos hd3]
        simp only [List.getD_cons_zero, List.getD_cons_succ, List.length_cons,
          List.drop_succ_cons, List.drop_zero]
        have hv : (0xE0 + c / 0x1000 - 0xE0) * 0x1000 + (0x80 + (c / 0x40) % 0x40 - 0x80) * 0x40 +
            (0x80 + c % 0x40 - 0x80) = c := by omega
        rw [hv]
        have hg : 2 ≤ bs.length + 1 + 1 ∧
            (0x80 ≤ 0x80 + (c / 0x40) % 0x40 ∧ 0x80 + (c / 0x40) % 0x40 < 0xC0) ∧
            (0x80 ≤ 0x80 + c % 0x40 ∧ 0x80 + c % 0x40 < 0xC0) ∧
            0x800 ≤ c ∧ ¬(0xD800 ≤ c ∧ c ≤ 0xDFFF) :=
          ⟨by omega, ⟨by omega, by omega⟩, ⟨by omega, by omega⟩, by omega, h2⟩
        rw [if_pos hg]
      · simp only [if_neg ha, if_neg hb, if_neg hcc, List.cons_append, List.nil_append]
        rw [utf8Decode]
        have hd1 : ¬ (0xF0 + c / 0x40000 < 0x80) := by omega
        have hd2 : ¬ (0xF0 + c / 0x40000 < 0xE0) := by omega
        have hd3 : ¬ (0xF0 + c / 0x40000 < 0xF0) := by omega
        rw [if_neg hd1, if_neg hd2, if_neg hd3]
        simp only [List.getD_cons_zero, List.getD_cons_succ, List.length_cons,
          List.drop_succ_cons, List.drop_zero]
        have hv : (0xF0 + c / 0x40000 - 0xF0) * 0x40000 +
            (0x80 + (c / 0x1000) % 0x40 - 0x80) * 0x1000 +
            (0x80 + (c / 0x40) % 0x40 - 0x80) * 0x40 + (0x80 + c % 0x40 - 0x80) = c := by omega
        rw [hv]
        have hg : 3 ≤ bs.length + 1 + 1 + 1 ∧ 0xF0 + c / 0x40000 < 0xF8 ∧
            (0x80 ≤ 0x80 + (c / 0x1000) % 0x40 ∧ 0x80 + (c / 0x1000) % 0x40 < 0xC0) ∧
            (0x80 ≤ 0x80 + (c / 0x40) % 0x40 ∧ 0x80 + (c / 0x40) % 0x40 < 0xC0) ∧
            (0x80 ≤ 0x80 + c % 0x40 ∧ 0x80 + c % 0x40 < 0xC0) ∧
            0x10000 ≤ c ∧ c ≤ 0x10FFFF :=
          ⟨by omega, by omega, ⟨by omega, by omega⟩, ⟨by omega, by omega⟩,
            ⟨by omega, by omega⟩, by omega, by omega⟩
        rw [if_pos hg]

theorem utf8Decode_utf8Encode (s : List Nat) (hs : ValidStr s) :
    utf8Decode (utf8Encode s) = some s := by
  induction s with
  | nil =>
    simp only [utf8Encode, List.flatMap_nil]
    rw [utf8Decode]
  | cons c t ih =>
    have hc : ValidChar c := hs c (List.mem_cons_self c t)
    have ht : ValidStr t := fun x hx => hs x (List.mem_cons_of_mem c hx)
    have he : utf8Encode (c :: t) = utf8EncodeChar c ++ utf8Encode t := by
      simp [utf8Encode]
    rw [he, utf8Decode_encodeChar c hc, ih ht]
    rfl

theorem utf8Encode_append (s t : List Nat) :
    utf8Encode (s ++ t) = utf8Encode s ++ utf8Encode t := by
  unfold utf8Encode
  exact List.flatMap_append s t utf8EncodeChar

theorem utf8Encode_lt_256 (s : List Nat) (hs : ValidStr s) :
    ∀ b ∈ utf8Encode s, b < 256 := by
  intro b hb
  unfold utf8Encode at hb
  rw [List.mem_flatMap] at hb
  obtain ⟨c, hc, hbc⟩ := hb
  exact utf8EncodeChar_lt_256 c (hs c hc) b hbc

/-! ### Corpus framer: the separator constant, joining, and `split_on_sep` -/

/-- `SEP_TOKEN = "[SEP]"` as a list of code points. -/
def SEP_TOKEN : List Nat := [91, 83, 69, 80, 93]

/-- `SEP_TOKEN_BYTES = SEP_TOKEN.encode("utf-8")`. -/
def SEP_TOKEN_BYTES : List Nat := utf8Encode SEP_TOKEN

/-- `SEP_TOKEN_BYTES.join(text.encode("utf-8") for text in texts)`:
the joined corpus byte sequence built at the start of `byte_pair_encoding`. -/
def joinedBytes (texts : List (List Nat)) : List Nat :=
  List.intercalate SEP_TOKEN_BYTES (texts.map utf8Encode)

/-- Scanner behind `decoded_text.split(sep_token)` (with the default
`sep_token = SEP_TOKEN`): Python's `str.split` finds non-overlapping
occurrences of the separator left to right, greedily; `cur` is the piece
accumulated since the previous cut.  A tail shorter than the separator
cannot contain it, which is why the second equation only moves one
character. -/
def split_on_sep_go : List Nat → List Nat → List (List Nat)
  | c0 :: c1 :: c2 :: c3 :: c4 :: rest, cur =>
    if [c0, c1, c2, c3, c4] = SEP_TOKEN then cur :: split_on_sep_go rest []
    else split_on_sep_go (c1 :: c2 :: c3 :: c4 :: rest) (cur ++ [c0])
  | c :: rest, cur => split_on_sep_go rest (cur ++ [c])
  | [], cur => [cur]

/-- `decoded_text.split(SEP_TOKEN)`. -/
def split_on_sep (decoded_text : List Nat) : List (List Nat) :=
  split_on_sep_go decoded_text []

theorem SEP_TOKEN_BYTES_eq : SEP_TOKEN_BYTES = [91, 83, 69, 80, 93] := by decide

theorem intercalate_nil (s : List Nat) : List.intercalate s ([] : List (List Nat)) = [] := rfl

theorem intercalate_single (s a : List Nat) : List.intercalate s [a] = a := by
  simp [List.intercalate]

theorem intercalate_cons_cons (s a b : List Nat) (t : List (List Nat)) :
    List.intercalate s (a :: b :: t) = a ++ s ++ List.intercalate s (b :: t) := by
  simp [List.intercalate, List.intersperse_cons_cons]

theorem splitGo_sep (rest cur : List Nat) :
    split_on_sep_go (91 :: 83 :: 69 :: 80 :: 93 :: rest) cur =
      cur :: split_on_sep_go rest [] := by
  simp [split_on_sep_go, SEP_TOKEN]

/-- The separator has no nontrivial border: no proper nonempty suffix of it
is also a prefix of it. -/
theorem sep_border_free :
    ∀ k, 1 ≤ k → k < 5 → SEP_TOKEN.drop k ≠ SEP_TOKEN.take (5 - k) := by decide

theorem sep_length : SEP_TOKEN.length = 5 := by decide

/-- A prefix that fits inside the left part of an append is a prefix of it. -/
theorem prefix_of_append_short {l u v : List Nat} (h : l <+: u ++ v)
    (hl : l.length ≤ u.length) : l <+: u := by
  obtain ⟨t, ht⟩ := h
  have : (u ++ v).take l.length = l := by
    rw [← ht, List.take_append_of_le_length (by simp)]
    exact List.take_length l
  rw [List.take_append_of_le_length hl] at this
  exact this ▸ List.take_prefix l.length u

/-- No occurrence of the separator starts strictly inside a separator:
`drop k SEP ++ r` never starts with `SEP` for `1 ≤ k < 5`. -/
theorem sep_not_prefix_sepdrop (k : Nat) (hk1 : 1 ≤ k) (hk2 : k < 5) (r : List Nat) :
    ¬ SEP_TOKEN <+: (SEP_TOKEN.drop k ++ r) := by
  intro h
  obtain ⟨t, ht⟩ := h
  have hlen : (SEP_TOKEN.drop k).length = 5 - k := by
    simp [sep_length]
  have h1 : (SEP_TOKEN.drop k ++ r).take (5 - k) = SEP_TOKEN.drop k := by
    rw [List.take_append_of_le_length (by omega)]
    apply List.take_of_length_le
    omega
  have h2 : (SEP_TOKEN ++ t).take (5 - k) = SEP_TOKEN.take (5 - k) := by
    rw [List.take_append_of_le_length (by rw [sep_length]; omega)]
  rw [ht] at h2
  rw [h1] at h2
  exact sep_border_free k hk1 hk2 (h2.symm ▸ rfl)

/-- No occurrence of the separator straddles the boundary between a short
nonempty chunk `u` and a following separator. -/
theorem sep_not_prefix_straddle (u : List Nat) (hu1 : 1 ≤ u.length) (hu2 : u.length < 5)
    (r : List Nat) : ¬ SEP_TOKEN <+: (u ++ (SEP_TOKEN ++ r)) := by
  intro h
  obtain ⟨t, ht⟩ := h
  have hu : u = SEP_TOKEN.take u.length := by
    have h1 : (u ++ (SEP_TOKEN ++ r)).take u.length = u := List.take_left u (SEP_TOKEN ++ r)
    have h2 : (SEP_TOKEN ++ t).take u.length = SEP_TOKEN.take u.length := by
      rw [List.take_append_of_le_length (by simp [sep_length]; omega)]
    rw [ht, h1] at h2
    exact h2
  have hd : SEP_TOKEN.drop u.length ++ t = SEP_TOKEN ++ r := by
    have h3 : (SEP_TOKEN ++ t).drop u.length = SEP_TOKEN.drop u.length ++ t := by
      rw [List.drop_append_of_le_length (by simp [sep_length]; omega)]
    have h4 : (u ++ (SEP_TOKEN ++ r)).drop u.length = SEP_TOKEN ++ r := by
      rw [List.drop_left]
    rw [ht, h4] at h3
    exact h3.symm
  exact sep_not_prefix_sepdrop u.length hu1 hu2 t ⟨r, hd.symm⟩

theorem splitGo_cons (c : Nat) (rest cur : List Nat) (h : ¬ SEP_TOKEN <+: (c :: rest)) :
    split_on_sep_go (c :: rest) cur = split_on_sep_go rest (cur ++ [c]) := by
  match rest with
  | [] => rfl
  | [c1] => rfl
  | [c1, c2] => rfl
  | [c1, c2, c3] => rfl
  | c1 :: c2 :: c3 :: c4 :: rest' =>
    rw [split_on_sep_go]
    rw [if_neg]
    intro heq
    exact h ⟨rest', by rw [← heq]; rfl⟩

theorem splitGo_chunk (x : List Nat) (rest : List Nat) :
    ∀ cur, (∀ k, k < x.length → ¬ SEP_TOKEN <+: (x.drop k ++ rest)) →
      split_on_sep_go (x ++ rest) cur = split_on_sep_go rest (cur ++ x) := by
  induction x with
  | nil => intro cur h; simp
  | cons c x' ih =>
    intro cur h
    have h0 : ¬ SEP_TOKEN <+: (c :: (x' ++ rest)) := by
      have := h 0 (by simp)
      simpa using this
    rw [List.cons_append, splitGo_cons c (x' ++ rest) cur h0]
    rw [ih (cur ++ [c]) (fun k hk => by
      have hlt : k + 1 < (c :: x').length := by
        simpa using Nat.succ_lt_succ hk
      have := h (k + 1) hlt
      simpa using this)]
    congr 1
    simp

theorem sep_infix_of_prefix_drop {b : List Nat} {k : Nat} (h : SEP_TOKEN <+: b.drop k) :
    SEP_TOKEN <:+: b := by
  obtain ⟨t, ht⟩ := h
  refine ⟨b.take k, t, ?_⟩
  rw [List.append_assoc, ht, List.take_append_drop]

/-- `split(sep.join(B)) == B`: splitting the intercalation of blocks on the
separator returns the blocks, provided there is at least one block and no
block contains the separator. -/
theorem split_on_sep_intercalate (B : List (List Nat)) (hB : B ≠ [])
    (h : ∀ b ∈ B, ¬ SEP_TOKEN <:+: b) :
    split_on_sep (List.intercalate SEP_TOKEN B) = B := by
  induction B with
  | nil => exact absurd rfl hB
  | cons b B' ih =>
    have hb : ¬ SEP_TOKEN <:+: b := h b (List.mem_cons_self b B')
    match B' with
    | [] =>
      rw [intercalate_single]
      unfold split_on_sep
      have := splitGo_chunk b [] [] (fun k hk hp => by
        rw [List.append_nil] at hp
        exact hb (sep_infix_of_prefix_drop hp))
      rw [List.append_nil] at this
      rw [this]
      simp [split_on_sep_go]
    | b2 :: T =>
      rw [intercalate_cons_cons]
      unfold split_on_sep
      rw [List.append_assoc]
      rw [splitGo_chunk b (SEP_TOKEN ++ List.intercalate SEP_TOKEN (b2 :: T)) []
        (fun k hk hp => by
          by_cases hlong : 5 ≤ (b.drop k).length
          · have : SEP_TOKEN <+: b.drop k :=
              prefix_of_append_short hp (by rw [sep_length]; omega)
            exact hb (sep_infix_of_prefix_drop this)
          · have h1 : 1 ≤ (b.drop k).length := by
              simp only [List.length_drop]
              omega
            exact sep_not_prefix_straddle (b.drop k) h1 (by omega) _ hp)]
      rw [show SEP_TOKEN ++ List.intercalate SEP_TOKEN (b2 :: T) =
        91 :: 83 :: 69 :: 80 :: 93 :: List.intercalate SEP_TOKEN (b2 :: T) from rfl]
      rw [splitGo_sep]
      have := ih (by simp) (fun x hx => h x (List.mem_cons_of_mem b hx))
      unfold split_on_sep at this
      rw [this]
      simp

/-! ### BPE core: training -/

/-- A merge map, `Dict[Tuple[int, int], int]`, in insertion order. -/
abbrev MergeMap := List ((Nat × Nat) × Nat)

/-- `merge_map[pair]` (and `pair in merge_map`, via `isSome`): the binding of
`pair`, `none` if absent. -/
def mmLookup : MergeMap → (Nat × Nat) → Option Nat
  | [], _ => none
  | (k, v) :: rest, p => if k = p then some v else mmLookup rest p

/-- `pairs[pair] += 1` on a `defaultdict(int)`: bump the count of `pair`,
appending a fresh key at the end (Python dicts keep insertion order). -/
def bumpPair : List ((Nat × Nat) × Nat) → (Nat × Nat) → List ((Nat × Nat) × Nat)
  | [], p => [(p, 1)]
  | (k, v) :: rest, p => if k = p then (k, v + 1) :: rest else (k, v) :: bumpPair rest p

/-- `get_byte_pair_frequency`:
`for i in range(len(byte_sequence) - 1): pairs[(byte_sequence[i], byte_sequence[i + 1])] += 1`. -/
def get_byte_pair_frequency (byte_sequence : List Nat) : List ((Nat × Nat) × Nat) :=
  (List.range (byte_sequence.length - 1)).foldl
    (fun pairs i => bumpPair pairs (byte_sequence.getD i 0, byte_sequence.getD (i + 1) 0)) []

/-- `max(pairs, key=pairs.get)`: the first key of maximal count in dict
(insertion) order; `none` when the dict is empty (there Python would raise,
but the call is guarded by `if not pairs: break`). -/
def maxByVal : List ((Nat × Nat) × Nat) → Option ((Nat × Nat) × Nat)
  | [] => none
  | e :: rest => some (rest.foldl (fun best x => if x.2 > best.2 then x else best) e)

/-- `merge_byte_pair`: the `while i < len(byte_sequence)` loop.  The first
equation is the branch `i < len(byte_sequence) - 1 and
(byte_sequence[i], byte_sequence[i + 1]) == pair` (append `new_token`,
advance two positions); otherwise append `byte_sequence[i]` and advance one;
a sequence with fewer than two elements left is copied unchanged. -/
def merge_byte_pair : List Nat → (Nat × Nat) → Nat → List Nat
  | b0 :: b1 :: rest, pair, new_token =>
    if (b0, b1) = pair then new_token :: merge_byte_pair rest pair new_token
    else b0 :: merge_byte_pair (b1 :: rest) pair new_token
  | l, _, _ => l

/-- One iteration of the `for _ in range(num_merges)` body of
`byte_pair_encoding`, on the state `(byte_text, merge_map, token_id)`;
`none` models the `break` taken when `pairs` is empty. -/
def bpeStep (st : List Nat × MergeMap × Nat) : Option (List Nat × MergeMap × Nat) :=
  match maxByVal (get_byte_pair_frequency st.1) with
  | none => none
  | some (most_frequent_pair, _) =>
    match mmLookup st.2.1 most_frequent_pair with
    | some v => some (merge_byte_pair st.1 most_frequent_pair v, st.2.1, st.2.2)
    | none =>
      some (merge_byte_pair st.1 most_frequent_pair st.2.2,
        st.2.1 ++ [(most_frequent_pair, st.2.2)], st.2.2 + 1)

/-- The `for _ in range(num_merges)` loop of `byte_pair_encoding`. -/
def bpeLoop : Nat → (List Nat × MergeMap × Nat) → List Nat × MergeMap × Nat
  | 0, st => st
  | n + 1, st =>
    match bpeStep st with
    | none => st
    | some st' => bpeLoop n st'

/-- Python's `max` over a list of naturals; `none` models the `ValueError`
raised on an empty list. -/
def pyMaxList : List Nat → Option Nat
  | [] => none
  | x :: xs => some (xs.foldl max x)

/-- `byte_pair_encoding(texts, num_merges)`: join the texts with `[SEP]`,
set `token_id = max(byte_text) + 1`, run the merge loop, and return
`(byte_text, merge_map)`.  `none` exactly when `max(byte_text)` raises on an
empty corpus. -/
def byte_pair_encoding (texts : List (List Nat)) (num_merges : Nat) :
    Option (List Nat × MergeMap) :=
  let byte_text := joinedBytes texts
  match pyMaxList byte_text with
  | none => none
  | some m =>
    let r := bpeLoop num_merges (byte_text, [], m + 1)
    some (r.1, r.2.1)

/-! ### BPE core: decoding -/

/-- The two exceptions `decode_byte_pair` can raise: `bytes(...)` rejects a
value above 255 with `ValueError`, and `.decode("utf-8")` rejects a
malformed buffer with `UnicodeDecodeError`. -/
inductive DecodeError
  | valueError
  | unicodeDecodeError
deriving DecidableEq

/-- `reverse_merge_map = {v: k for k, v in merge_map.items()}` followed by
`reverse_merge_map[token]` (`none` encodes `token not in reverse_merge_map`):
on duplicate values the comprehension keeps the last binding, hence the
overwriting `foldl`. -/
def rmLookup (merge_map : MergeMap) (token : Nat) : Option (Nat × Nat) :=
  merge_map.foldl (fun acc e => if e.2 = token then some e.1 else acc) none

/-- The `while stack:` loop of `decode_byte_pair`.  The head of the list is
the top of the stack (Python stores the stack reversed and pops from the
end, so the token processed next is the leftmost).  `fuel` bounds the number
of iterations; `none` means the loop is still running after `fuel`
iterations (it can genuinely diverge on a cyclic merge map). -/
def decodeLoop (merge_map : MergeMap) : Nat → List Nat → List Nat → Option (List Nat)
  | _, [], decoded_sequence => some decoded_sequence
  | 0, _ :: _, _ => none
  | fuel + 1, token :: stack, decoded_sequence =>
    match rmLookup merge_map token with
    | some (first, second) =>
      decodeLoop merge_map fuel (first :: second :: stack) decoded_sequence
    | none => decodeLoop merge_map fuel stack (decoded_sequence ++ [token])

/-- `decode_byte_pair(encoded_sequence, merge_map)`: run the stack loop, then
`bytes(decoded_sequence).decode("utf-8")`.  The outer `Option` is the fuel
bound of the loop; the inner `Except` carries the raised exception, if any. -/
def decode_byte_pair (fuel : Nat) (encoded_sequence : List Nat) (merge_map : MergeMap) :
    Option (Except DecodeError (List Nat)) :=
  (decodeLoop merge_map fuel encoded_sequence []).map (fun decoded_sequence =>
    if decoded_sequence.all (fun b => b < 256) then
      match utf8Decode decoded_sequence with
      | some s => Except.ok s
      | none => Except.error DecodeError.unicodeDecodeError
    else Except.error DecodeError.valueError)

/-! ### Properties of the merge applier -/

/-- The number of non-overlapping, leftmost-first occurrences of `p` in
`seq`, counted exactly as the applier's left-to-right scan encounters them
(the quantity the spec's "advances two positions" talks about). -/
def nolCount : List Nat → (Nat × Nat) → Nat
  | b0 :: b1 :: rest, p => if (b0, b1) = p then 1 + nolCount rest p else nolCount (b1 :: rest) p
  | _, _ => 0

theorem merge_byte_pair_length (seq : List Nat) (p : Nat × Nat) (v : Nat) :
    (merge_byte_pair seq p v).length + nolCount seq p = seq.length := by
  induction seq, p, v using merge_byte_pair.induct with
  | case1 b0 b1 rest new_token ih =>
    simp [merge_byte_pair, nolCount]
    omega
  | case2 b0 b1 rest pair new_token h ih =>
    simp [merge_byte_pair, nolCount, h] at ih ⊢
    omega
  | case3 l pair new_token h =>
    match l, h with
    | [], _ => rfl
    | [a], _ => rfl
    | b0 :: b1 :: rest, h => exact absurd rfl (h b0 b1 rest)

theorem nolCount_eq_zero (seq : List Nat) (p : Nat × Nat) (h : p ∉ seq.zip seq.tail) :
    nolCount seq p = 0 := by
  induction seq, p using nolCount.induct with
  | case1 b0 b1 rest ih =>
    exact absurd (by simp) h
  | case2 b0 b1 rest p h' ih =>
    simp only [List.tail_cons, List.zip_cons_cons, List.mem_cons, not_or] at h
    simp only [nolCount, if_neg h']
    exact ih (by simpa using h.2)
  | case3 l p h' =>
    match l, h' with
    | [], _ => rfl
    | [a], _ => rfl
    | b0 :: b1 :: rest, h' => exact absurd rfl (h' b0 b1 rest)

theorem nolCount_pos (seq : List Nat) (p : Nat × Nat) (h : p ∈ seq.zip seq.tail) :
    1 ≤ nolCount seq p := by
  induction seq, p using nolCount.induct with
  | case1 b0 b1 rest ih =>
    simp [nolCount]
  | case2 b0 b1 rest p h' ih =>
    simp only [List.tail_cons, List.zip_cons_cons, List.mem_cons] at h
    rcases h with h1 | h2
    · exact absurd h1.symm h'
    · simp only [nolCount, if_neg h']
      exact ih (by simpa using h2)
  | case3 l p h' =>
    match l, h' with
    | [], _ => simp at h
    | [a], _ => simp [List.zip] at h
    | b0 :: b1 :: rest, h' => exact absurd rfl (h' b0 b1 rest)

theorem merge_byte_pair_eq_self (seq : List Nat) (p : Nat × Nat) (v : Nat)
    (h : p ∉ seq.zip seq.tail) : merge_byte_pair seq p v = seq := by
  induction seq, p, v using merge_byte_pair.induct with
  | case1 b0 b1 rest new_token ih =>
    exact absurd (by simp) h
  | case2 b0 b1 rest pair new_token h' ih =>
    simp only [List.tail_cons, List.zip_cons_cons, List.mem_cons, not_or] at h
    simp only [merge_byte_pair, if_neg h']
    rw [ih (by simpa using h.2)]
  | case3 l pair new_token h' =>
    match l, h' with
    | [], _ => rfl
    | [a], _ => rfl
    | b0 :: b1 :: rest, h' => exact absurd rfl (h' b0 b1 rest)

theorem merge_byte_pair_flatMap (f : Nat → List Nat) (seq : List Nat) (p : Nat × Nat) (v : Nat)
    (hf : f v = f p.1 ++ f p.2) :
    (merge_byte_pair seq p v).flatMap f = seq.flatMap f := by
  induction seq, p, v using merge_byte_pair.induct with
  | case1 b0 b1 rest new_token ih =>
    simp only [merge_byte_pair, if_pos rfl, ite_true, List.flatMap_cons, ih hf]
    simp only [hf]
    simp [List.append_assoc]
  | case2 b0 b1 rest pair new_token h ih =>
    simp only [merge_byte_pair, if_neg h, List.flatMap_cons]
    rw [ih hf]
    simp [List.flatMap_cons]
  | case3 l pair new_token h =>
    match l, h with
    | [], _ => rfl
    | [a], _ => rfl
    | b0 :: b1 :: rest, h => exact absurd rfl (h b0 b1 rest)

theorem mem_of_mem_zip_tail {a b : Nat} {seq : List Nat}
    (h : (a, b) ∈ seq.zip seq.tail) : a ∈ seq ∧ b ∈ seq := by
  induction seq with
  | nil => simp at h
  | cons x rest ih =>
    match rest, h with
    | y :: t, h =>
      rcases (by simpa using h : (a = x ∧ b = y) ∨ (a, b) ∈ (y :: t).zip t) with ⟨h1, h2⟩ | h2
      · subst h1; subst h2; simp
      · have := ih (by simpa using h2)
        exact ⟨List.mem_cons_of_mem x this.1, List.mem_cons_of_mem x this.2⟩

theorem merge_byte_pair_elem (seq : List Nat) (p : Nat × Nat) (v : Nat) :
    ∀ x ∈ merge_byte_pair seq p v, x = v ∨ x ∈ seq := by
  induction seq, p, v using merge_byte_pair.induct with
  | case1 b0 b1 rest new_token ih =>
    intro x hx
    simp only [merge_byte_pair, if_pos rfl, ite_true, List.mem_cons] at hx
    rcases hx with h1 | h2
    · exact Or.inl h1
    · rcases ih x h2 with h3 | h3
      · exact Or.inl h3
      · exact Or.inr (by simp [h3])
  | case2 b0 b1 rest pair new_token h ih =>
    intro x hx
    simp only [merge_byte_pair, if_neg h, List.mem_cons] at hx
    rcases hx with h1 | h2
    · exact Or.inr (by simp [h1])
    · rcases ih x h2 with h3 | h3
      · exact Or.inl h3
      · simp only [List.mem_cons] at h3 ⊢
        exact Or.inr (Or.inr h3)
  | case3 l pair new_token h =>
    intro x hx
    match l, h with
    | [], _ =>
      have hn : merge_byte_pair [] pair new_token = [] := rfl
      rw [hn] at hx
      simp at hx
    | [a], _ => exact Or.inr hx
    | b0 :: b1 :: rest, h => exact absurd rfl (h b0 b1 rest)

/-! ### Properties of the pair-frequency counter -/

/-- The adjacent pairs `(seq[i], seq[i+1])`, `i = 0 .. len - 2`, in order. -/
def pairList (seq : List Nat) : List (Nat × Nat) :=
  (List.range (seq.length - 1)).map (fun i => (seq.getD i 0, seq.getD (i + 1) 0))

theorem pairList_eq_zip (seq : List Nat) : pairList seq = seq.zip seq.tail := by
  induction seq with
  | nil => rfl
  | cons a rest ih =>
    match rest with
    | [] => rfl
    | b :: t =>
      unfold pairList at ih ⊢
      simp only [List.length_cons, Nat.add_sub_cancel] at ih ⊢
      rw [List.range_succ_eq_map, List.map_cons, List.map_map]
      simp only [Function.comp_def, List.getD_cons_zero, List.getD_cons_succ] at ih ⊢
      rw [ih]
      simp [List.zip_cons_cons]

theorem get_byte_pair_frequency_eq_foldl (seq : List Nat) :
    get_byte_pair_frequency seq = (seq.zip seq.tail).foldl bumpPair [] := by
  unfold get_byte_pair_frequency
  rw [← pairList_eq_zip]
  unfold pairList
  rw [List.foldl_map]

theorem bumpPair_ne_nil (m : List ((Nat × Nat) × Nat)) (p : Nat × Nat) :
    bumpPair m p ≠ [] := by
  match m with
  | [] => simp [bumpPair]
  | (k, v) :: rest =>
    simp only [bumpPair]
    split <;> simp

theorem foldl_bumpPair_ne_nil (l : List (Nat × Nat)) (hl : l ≠ []) :
    ∀ m, l.foldl bumpPair m ≠ [] := by
  induction l with
  | nil => exact absurd rfl hl
  | cons x l' ih =>
    intro m
    match l' with
    | [] => simpa using bumpPair_ne_nil m x
    | y :: t => simpa using ih (by simp) (bumpPair m x)

theorem get_byte_pair_frequency_eq_nil_iff (seq : List Nat) :
    get_byte_pair_frequency seq = [] ↔ seq.length ≤ 1 := by
  rw [get_byte_pair_frequency_eq_foldl]
  match seq with
  | [] => simp
  | [a] => simp [List.zip]
  | a :: b :: t =>
    simp only [List.tail_cons, List.zip_cons_cons, List.length_cons]
    constructor
    · intro h
      exact absurd h (foldl_bumpPair_ne_nil _ (by simp) [])
    · omega

theorem mmLookup_bumpPair (m : List ((Nat × Nat) × Nat)) (p q : Nat × Nat) :
    mmLookup (bumpPair m p) q =
      if q = p then some ((mmLookup m p).getD 0 + 1) else mmLookup m q := by
  induction m with
  | nil =>
    by_cases h : q = p
    · subst h; simp [bumpPair, mmLookup]
    · simp [bumpPair, mmLookup, h, Ne.symm h]
  | cons e rest ih =>
    obtain ⟨k, v⟩ := e
    by_cases hkp : k = p
    · subst hkp
      simp only [bumpPair, if_pos rfl, mmLookup]
      by_cases hq : k = q
      · subst hq
        simp
      · simp [hq, Ne.symm hq]
    · simp only [bumpPair, if_neg hkp, mmLookup]
      by_cases hq : k = q
      · subst hq
        simp [hkp, Ne.symm hkp]
      · simp only [if_neg hq, ih, hkp]

theorem mmLookup_foldl_bumpPair (l : List (Nat × Nat)) :
    ∀ (m : List ((Nat × Nat) × Nat)) (p : Nat × Nat),
      mmLookup (l.foldl bumpPair m) p =
        match mmLookup m p with
        | some v => some (v + l.count p)
        | none => if l.count p = 0 then none else some (l.count p) := by
  induction l with
  | nil =>
    intro m p
    match h : mmLookup m p with
    | some v => simp [h]
    | none => simp [h]
  | cons x l' ih =>
    intro m p
    rw [List.foldl_cons, ih (bumpPair m x) p, mmLookup_bumpPair]
    by_cases hpx : p = x
    · subst hpx
      rw [if_pos rfl]
      match h : mmLookup m p with
      | some v =>
        simp [h, List.count_cons]
        omega
      | none =>
        simp [h, List.count_cons]
        omega
    · rw [if_neg hpx]
      have hxp : ¬ x = p := fun h => hpx h.symm
      have hc : (x :: l').count p = l'.count p := by
        simp [List.count_cons, hxp]
      rw [hc]

theorem mmLookup_get_byte_pair_frequency (seq : List Nat) (p : Nat × Nat) :
    mmLookup (get_byte_pair_frequency seq) p =
      if (seq.zip seq.tail).count p = 0 then none else some ((seq.zip seq.tail).count p) := by
  rw [get_byte_pair_frequency_eq_foldl, mmLookup_foldl_bumpPair]
  rfl

theorem mmLookup_eq_none_iff (m : MergeMap) (p : Nat × Nat) :
    mmLookup m p = none ↔ p ∉ m.map Prod.fst := by
  induction m with
  | nil => simp [mmLookup]
  | cons e rest ih =>
    obtain ⟨k, v⟩ := e
    simp only [mmLookup, List.map_cons, List.mem_cons, not_or]
    by_cases h : k = p
    · subst h; simp
    · simp [h, Ne.symm h, ih]

theorem bumpPair_keys (m : List ((Nat × Nat) × Nat)) (p : Nat × Nat) :
    (bumpPair m p).map Prod.fst = m.map Prod.fst ∨
      ((bumpPair m p).map Prod.fst = m.map Prod.fst ++ [p] ∧ p ∉ m.map Prod.fst) := by
  induction m with
  | nil => simp [bumpPair]
  | cons e rest ih =>
    obtain ⟨k, v⟩ := e
    by_cases h : k = p
    · subst h
      simp [bumpPair]
    · simp only [bumpPair, if_neg h, List.map_cons]
      rcases ih with h1 | ⟨h1, h2⟩
      · left; rw [h1]
      · right
        constructor
        · rw [h1]; rfl
        · simp [h2, Ne.symm h]

theorem bumpPair_keys_nodup (m : List ((Nat × Nat) × Nat)) (p : Nat × Nat)
    (h : (m.map Prod.fst).Nodup) : ((bumpPair m p).map Prod.fst).Nodup := by
  rcases bumpPair_keys m p with h1 | ⟨h1, h2⟩
  · rw [h1]; exact h
  · rw [h1]
    simp [List.nodup_append, h, h2]

theorem foldl_bumpPair_keys_nodup (l : List (Nat × Nat)) :
    ∀ m, (m.map Prod.fst).Nodup → ((l.foldl bumpPair m).map Prod.fst).Nodup := by
  induction l with
  | nil => intro m h; exact h
  | cons x l' ih =>
    intro m h
    exact ih (bumpPair m x) (bumpPair_keys_nodup m x h)

theorem get_byte_pair_frequency_keys_nodup (seq : List Nat) :
    ((get_byte_pair_frequency seq).map Prod.fst).Nodup := by
  rw [get_byte_pair_frequency_eq_foldl]
  exact foldl_bumpPair_keys_nodup _ [] (by simp)

theorem mmLookup_of_mem {m : MergeMap} (hnd : (m.map Prod.fst).Nodup)
    {e : (Nat × Nat) × Nat} (he : e ∈ m) : mmLookup m e.1 = some e.2 := by
  induction m with
  | nil => simp at he
  | cons x rest ih =>
    obtain ⟨k, v⟩ := x
    simp only [List.map_cons, List.nodup_cons] at hnd
    rcases (by simpa using he) with h1 | h2
    · subst h1
      simp [mmLookup]
    · have hk : k ≠ e.1 := by
        intro hke
        exact hnd.1 (hke ▸ List.mem_map_of_mem Prod.fst h2)
      simp only [mmLookup, if_neg hk]
      exact ih hnd.2 h2

theorem maxByVal_spec (m : List ((Nat × Nat) × Nat)) (e : (Nat × Nat) × Nat)
    (h : maxByVal m = some e) : e ∈ m ∧ ∀ x ∈ m, x.2 ≤ e.2 := by
  match m with
  | [] => simp [maxByVal] at h
  | e0 :: rest =>
    simp only [maxByVal, Option.some_inj] at h
    subst h
    have key : ∀ (rest : List ((Nat × Nat) × Nat)) (b : (Nat × Nat) × Nat),
        (rest.foldl (fun best x => if x.2 > best.2 then x else best) b = b ∨
          rest.foldl (fun best x => if x.2 > best.2 then x else best) b ∈ rest) ∧
        b.2 ≤ (rest.foldl (fun best x => if x.2 > best.2 then x else best) b).2 ∧
        ∀ x ∈ rest, x.2 ≤ (rest.foldl (fun best x => if x.2 > best.2 then x else best) b).2 := by
      intro rest
      induction rest with
      | nil => intro b; simp
      | cons y t ih =>
        intro b
        rw [List.foldl_cons]
        by_cases hy : y.2 > b.2
        · rw [if_pos hy]
          rcases ih y with ⟨ih1, ih2, ih3⟩
          refine ⟨?_, by omega, ?_⟩
          · rcases ih1 with h1 | h1
            · right; simp [h1]
            · right; exact List.mem_cons_of_mem y h1
          · intro x hx
            rcases (by simpa using hx) with h2 | h2
            · subst h2; exact ih2
            · exact ih3 x h2
        · rw [if_neg hy]
          rcases ih b with ⟨ih1, ih2, ih3⟩
          refine ⟨?_, ih2, ?_⟩
          · rcases ih1 with h1 | h1
            · left; exact h1
            · right; exact List.mem_cons_of_mem y h1
          · intro x hx
            rcases (by simpa using hx) with h2 | h2
            · subst h2; omega
            · exact ih3 x h2
    rcases key rest e0 with ⟨k1, k2, k3⟩
    refine ⟨?_, ?_⟩
    · rcases k1 with h1 | h1
      · simp [h1]
      · exact List.mem_cons_of_mem e0 h1
    · intro x hx
      rcases (by simpa using hx) with h2 | h2
      · subst h2; exact k2
      · exact k3 x h2

theorem maxByVal_eq_none_iff (m : List ((Nat × Nat) × Nat)) :
    maxByVal m = none ↔ m = [] := by
  match m with
  | [] => simp [maxByVal]
  | e :: rest => simp [maxByVal]

/-! ### Properties of the training loop -/

theorem bpeLoop_fix (st : List Nat × MergeMap × Nat) (h : bpeStep st = none) :
    ∀ n, bpeLoop n st = st := by
  intro n
  match n with
  | 0 => rfl
  | n + 1 => simp [bpeLoop, h]

theorem bpeLoop_add (k j : Nat) (st : List Nat × MergeMap × Nat) :
    bpeLoop (k + j) st = bpeLoop j (bpeLoop k st) := by
  induction k generalizing st with
  | zero => rw [Nat.zero_add]; rfl
  | succ k ih =>
    rw [show k + 1 + j = (k + j) + 1 from by omega]
    simp only [bpeLoop]
    match h : bpeStep st with
    | none => rw [bpeLoop_fix st h]
    | some st' => exact ih st'

theorem bpeStep_mm_grows (st st' : List Nat × MergeMap × Nat) (h : bpeStep st = some st') :
    st.2.1 <+: st'.2.1 := by
  unfold bpeStep at h
  match h1 : maxByVal (get_byte_pair_frequency st.1) with
  | none => simp [h1] at h
  | some (p, c) =>
    match h2 : mmLookup st.2.1 p with
    | some v =>
      simp only [h1, h2, Option.some_inj] at h
      rw [← h]
    | none =>
      simp only [h1, h2, Option.some_inj] at h
      rw [← h]
      exact ⟨[(p, st.2.2)], rfl⟩

theorem bpeLoop_mm_grows (n : Nat) : ∀ st, st.2.1 <+: (bpeLoop n st).2.1 := by
  induction n with
  | zero => intro st; exact List.prefix_rfl
  | succ n ih =>
    intro st
    simp only [bpeLoop]
    match h : bpeStep st with
    | none => exact List.prefix_rfl
    | some st' => exact (bpeStep_mm_grows st st' h).trans (ih st')

theorem bpeLoop_mm_mono (k n : Nat) (st : List Nat × MergeMap × Nat) (hkn : k ≤ n) :
    (bpeLoop k st).2.1 <+: (bpeLoop n st).2.1 := by
  rw [show n = k + (n - k) from by omega, bpeLoop_add]
  exact bpeLoop_mm_grows (n - k) (bpeLoop k st)

theorem bpeStep_mm_length (st st' : List Nat × MergeMap × Nat) (h : bpeStep st = some st') :
    st'.2.1.length ≤ st.2.1.length + 1 := by
  unfold bpeStep at h
  match h1 : maxByVal (get_byte_pair_frequency st.1) with
  | none => simp [h1] at h
  | some (p, c) =>
    match h2 : mmLookup st.2.1 p with
    | some v =>
      simp only [h1, h2, Option.some_inj] at h
      rw [← h]
      exact Nat.le_succ _
    | none =>
      simp only [h1, h2, Option.some_inj] at h
      rw [← h]
      simp

theorem bpeLoop_mm_length (n : Nat) : ∀ st, (bpeLoop n st).2.1.length ≤ st.2.1.length + n := by
  induction n with
  | zero => intro st; simp [bpeLoop]
  | succ n ih =>
    intro st
    match h : bpeStep st with
    | none =>
      rw [bpeLoop_fix st h]
      omega
    | some st' =>
      have hs : bpeLoop (n + 1) st = bpeLoop n st' := by simp [bpeLoop, h]
      rw [hs]
      have h1 := bpeStep_mm_length st st' h
      have h2 := ih st'
      omega

theorem bpeStep_none_of_short (st : List Nat × MergeMap × Nat) (h : st.1.length ≤ 1) :
    bpeStep st = none := by
  unfold bpeStep
  rw [(get_byte_pair_frequency_eq_nil_iff st.1).2 h]
  rfl

theorem pyMaxList_spec (l : List Nat) (m : Nat) (h : pyMaxList l = some m) :
    ∀ b ∈ l, b ≤ m := by
  match l with
  | [] => simp [pyMaxList] at h
  | x :: xs =>
    simp only [pyMaxList, Option.some_inj] at h
    subst h
    have key : ∀ (xs : List Nat) (x : Nat), x ≤ xs.foldl max x ∧ ∀ b ∈ xs, b ≤ xs.foldl max x := by
      intro xs
      induction xs with
      | nil => intro x; simp
      | cons y t ih =>
        intro x
        rw [List.foldl_cons]
        rcases ih (max x y) with ⟨ih1, ih2⟩
        refine ⟨by omega, ?_⟩
        intro b hb
        rcases (by simpa using hb) with h1 | h1
        · subst h1; omega
        · exact ih2 b h1
    intro b hb
    rcases (by simpa using hb) with h1 | h1
    · subst h1; exact (key xs b).1
    · exact (key xs x).2 b h1

/-! ### The expansion semantics of a merge map -/

/-- Fuel-bounded recursive expansion of a token into the raw bytes it stands
for under `merge_map` (the denotation the decoder's stack loop computes).
For merge maps whose entries send pairs of smaller ids to a larger id, as
training produces, fuel `t` is always enough for token `t`. -/
def expandT (mm : MergeMap) : Nat → Nat → List Nat
  | 0, t => [t]
  | fuel + 1, t =>
    match rmLookup mm t with
    | some (a, b) => expandT mm fuel a ++ expandT mm fuel b
    | none => [t]

/-- The expansion of token `t`: `expandT` with the always-sufficient fuel `t`. -/
def expand (mm : MergeMap) (t : Nat) : List Nat := expandT mm t t

/-- A merge map each of whose entries maps a pair of smaller ids to a larger
id.  Training only ever produces such maps. -/
def GoodMM (mm : MergeMap) : Prop := ∀ e ∈ mm, e.1.1 < e.2 ∧ e.1.2 < e.2

theorem rmLookup_append_single (mm : MergeMap) (q : Nat × Nat) (w t : Nat) :
    rmLookup (mm ++ [(q, w)]) t = if w = t then some q else rmLookup mm t := by
  unfold rmLookup
  rw [List.foldl_append]
  simp only [List.foldl_cons, List.foldl_nil]

theorem rmLookup_mem (mm : MergeMap) (t : Nat) (p : Nat × Nat)
    (h : rmLookup mm t = some p) : (p, t) ∈ mm := by
  unfold rmLookup at h
  have key : ∀ (mm : MergeMap) (acc : Option (Nat × Nat)),
      mm.foldl (fun acc e => if e.2 = t then some e.1 else acc) acc = some p →
      (p, t) ∈ mm ∨ acc = some p := by
    intro mm
    induction mm with
    | nil => intro acc h; exact Or.inr h
    | cons e rest ih =>
      intro acc h
      rw [List.foldl_cons] at h
      rcases ih _ h with h1 | h1
      · exact Or.inl (List.mem_cons_of_mem e h1)
      · by_cases he : e.2 = t
        · rw [if_pos he] at h1
          simp only [Option.some_inj] at h1
          left
          have : e = (p, t) := by
            obtain ⟨e1, e2⟩ := e
            simp at he h1
            simp [he, h1]
          simp [← this]
        · rw [if_neg he] at h1
          exact Or.inr h1
  rcases key mm none h with h1 | h1
  · exact h1
  · simp at h1

theorem mmLookup_mem (m : MergeMap) (p : Nat × Nat) (v : Nat)
    (h : mmLookup m p = some v) : (p, v) ∈ m := by
  induction m with
  | nil => simp [mmLookup] at h
  | cons e rest ih =>
    obtain ⟨k, w⟩ := e
    simp only [mmLookup] at h
    by_cases hk : k = p
    · rw [if_pos hk] at h
      simp only [Option.some_inj] at h
      subst hk; subst h
      simp
    · rw [if_neg hk] at h
      exact List.mem_cons_of_mem _ (ih h)

theorem rmLookup_of_mem (mm : MergeMap) (p : Nat × Nat) (v : Nat)
    (hvals : List.Pairwise (fun e1 e2 => e1.2 < e2.2) mm) (hm : (p, v) ∈ mm) :
    rmLookup mm v = some p := by
  induction mm using List.reverseRecOn with
  | nil => simp at hm
  | append_singleton ys e ih =>
    rw [show rmLookup (ys ++ [e]) v = if e.2 = v then some e.1 else rmLookup ys v from by
      obtain ⟨q, w⟩ := e; exact rmLookup_append_single ys q w v]
    rcases (by simpa using hm) with h1 | h1
    · have hys : List.Pairwise (fun e1 e2 => e1.2 < e2.2) ys :=
        (List.pairwise_append.1 hvals).1
      have hcross := (List.pairwise_append.1 hvals).2.2
      have hne : e.2 ≠ v := by
        have := hcross (p, v) h1 e (by simp)
        simp at this
        omega
      rw [if_neg hne]
      exact ih hys h1
    · subst h1
      simp

theorem expandT_stable (mm : MergeMap) (hg : GoodMM mm) :
    ∀ t fuel fuel', t ≤ fuel → t ≤ fuel' → expandT mm fuel t = expandT mm fuel' t := by
  intro t
  induction t using Nat.strong_induction_on with
  | _ t ih =>
    intro fuel fuel' h1 h2
    match h : rmLookup mm t with
    | none =>
      match fuel with
      | 0 =>
        match fuel' with
        | 0 => rfl
        | f' + 1 => simp [expandT, h]
      | f + 1 =>
        match fuel' with
        | 0 => simp [expandT, h]
        | f' + 1 => simp [expandT, h]
    | some (a, b) =>
      have hmem := rmLookup_mem mm t (a, b) h
      have hab := hg _ hmem
      simp only at hab
      match fuel with
      | 0 => omega
      | f + 1 =>
        match fuel' with
        | 0 => omega
        | f' + 1 =>
          simp only [expandT, h]
          rw [ih a (by omega) f f' (by omega) (by omega),
            ih b (by omega) f f' (by omega) (by omega)]

theorem expand_eq (mm : MergeMap) (hg : GoodMM mm) (t : Nat) (a b : Nat)
    (h : rmLookup mm t = some (a, b)) : expand mm t = expand mm a ++ expand mm b := by
  have hab := hg _ (rmLookup_mem mm t (a, b) h)
  simp only at hab
  obtain ⟨t', rfl⟩ : ∃ t', t = t' + 1 := ⟨t - 1, by omega⟩
  unfold expand
  simp only [expandT, h]
  rw [expandT_stable mm hg a t' a (by omega) (by omega),
    expandT_stable mm hg b t' b (by omega) (by omega)]

theorem expand_raw (mm : MergeMap) (t : Nat) (h : rmLookup mm t = none) :
    expand mm t = [t] := by
  unfold expand
  match t with
  | 0 => rfl
  | t + 1 => simp [expandT, h]

theorem expand_extend (mm : MergeMap) (hg : GoodMM mm) (q : Nat × Nat) (w : Nat)
    (_hw : ∀ e ∈ mm, e.2 < w) :
    ∀ fuel t, t < w → expandT (mm ++ [(q, w)]) fuel t = expandT mm fuel t := by
  intro fuel
  induction fuel with
  | zero => intro t ht; rfl
  | succ f ih =>
    intro t ht
    have hr : rmLookup (mm ++ [(q, w)]) t = rmLookup mm t := by
      rw [rmLookup_append_single, if_neg (by omega)]
    match h : rmLookup mm t with
    | none => simp [expandT, hr, h]
    | some (a, b) =>
      have hab := hg _ (rmLookup_mem mm t (a, b) h)
      simp only at hab
      simp only [expandT, hr, h]
      rw [ih a (by omega), ih b (by omega)]

theorem expand_extend' (mm : MergeMap) (hg : GoodMM mm) (q : Nat × Nat) (w : Nat)
    (hw : ∀ e ∈ mm, e.2 < w) (t : Nat) (ht : t < w) :
    expand (mm ++ [(q, w)]) t = expand mm t := by
  unfold expand
  exact expand_extend mm hg q w hw t t ht

theorem expand_nil (t : Nat) : expand [] t = [t] :=
  expand_raw [] t rfl

theorem flatMap_congr_on (l : List Nat) (f g : Nat → List Nat)
    (h : ∀ x ∈ l, f x = g x) : l.flatMap f = l.flatMap g := by
  induction l with
  | nil => rfl
  | cons x t ih =>
    simp only [List.flatMap_cons]
    rw [h x (by simp), ih (fun y hy => h y (by simp [hy]))]

theorem flatMap_expand_nil (l : List Nat) : l.flatMap (expand []) = l := by
  induction l with
  | nil => rfl
  | cons x t ih =>
    simp only [List.flatMap_cons, expand_nil, ih]
    rfl

/-! ### The training invariant -/

/-- Invariant carried by the training loop for an initial byte sequence
`orig` and initial fresh id `tid0 = max(orig) + 1`: every sequence element
and merge-map value stays below the id counter, entries map pairs of
smaller ids to fresh ids in allocation order, keys are unique, and the
current sequence still expands to the original bytes. -/
def TrainInv (orig : List Nat) (tid0 : Nat) (st : List Nat × MergeMap × Nat) : Prop :=
  1 ≤ tid0 ∧ tid0 ≤ st.2.2 ∧
  (∀ x ∈ st.1, x < st.2.2) ∧
  (∀ e ∈ st.2.1, e.1.1 < e.2 ∧ e.1.2 < e.2 ∧ tid0 ≤ e.2 ∧ e.2 < st.2.2) ∧
  List.Pairwise (fun e1 e2 => e1.2 < e2.2) st.2.1 ∧
  List.Pairwise (fun e1 e2 => e1.1 ≠ e2.1) st.2.1 ∧
  st.1.flatMap (expand st.2.1) = orig

theorem trainInv_init (orig : List Nat) (tid0 : Nat) (h1 : 1 ≤ tid0)
    (h2 : ∀ b ∈ orig, b < tid0) : TrainInv orig tid0 (orig, [], tid0) :=
  ⟨h1, Nat.le_refl _, h2, by simp, by simp, by simp, flatMap_expand_nil orig⟩

theorem trainInv_step (orig : List Nat) (tid0 : Nat) (st st' : List Nat × MergeMap × Nat)
    (hinv : TrainInv orig tid0 st) (h : bpeStep st = some st') : TrainInv orig tid0 st' := by
  obtain ⟨seq, mm, tid⟩ := st
  obtain ⟨hi1, hi2, hi3, hi4, hi5, hi6, hi7⟩ := hinv
  simp only at hi2 hi3 hi4 hi5 hi6 hi7
  unfold bpeStep at h
  simp only at h
  match h1 : maxByVal (get_byte_pair_frequency seq) with
  | none => simp [h1] at h
  | some (p, c) =>
    have hspec := maxByVal_spec _ _ h1
    have hpmem : (p, c) ∈ get_byte_pair_frequency seq := hspec.1
    have hplook : mmLookup (get_byte_pair_frequency seq) p = some c :=
      mmLookup_of_mem (get_byte_pair_frequency_keys_nodup seq) hpmem
    have hcount : (seq.zip seq.tail).count p ≠ 0 := by
      rw [mmLookup_get_byte_pair_frequency] at hplook
      by_contra hc
      simp [hc] at hplook
    have hpzip : p ∈ seq.zip seq.tail := List.count_pos_iff.1 (by omega)
    obtain ⟨p1, p2⟩ := p
    have hp12 := mem_of_mem_zip_tail hpzip
    have hp1 : p1 < tid := hi3 _ hp12.1
    have hp2 : p2 < tid := hi3 _ hp12.2
    have hgood : GoodMM mm := fun e he => ⟨(hi4 e he).1, (hi4 e he).2.1⟩
    match h2 : mmLookup mm (p1, p2) with
    | some v =>
      simp only [h1, h2, Option.some_inj] at h
      rw [← h]
      have hvmem : ((p1, p2), v) ∈ mm := mmLookup_mem mm _ v h2
      have hv := hi4 _ hvmem
      have hrv : rmLookup mm v = some (p1, p2) := rmLookup_of_mem mm _ v hi5 hvmem
      have hexp : expand mm v = expand mm p1 ++ expand mm p2 := expand_eq mm hgood v p1 p2 hrv
      refine ⟨hi1, hi2, ?_, hi4, hi5, hi6, ?_⟩
      · intro x hx
        rcases merge_byte_pair_elem seq (p1, p2) v x hx with h3 | h3
        · rw [h3]
          exact hv.2.2.2
        · exact hi3 x h3
      · show (merge_byte_pair seq (p1, p2) v).flatMap (expand mm) = orig
        rw [merge_byte_pair_flatMap (expand mm) seq (p1, p2) v hexp]
        exact hi7
    | none =>
      simp only [h1, h2, Option.some_inj] at h
      rw [← h]
      have hkeys : ∀ e ∈ mm, e.1 ≠ (p1, p2) := by
        intro e he heq
        have hno := (mmLookup_eq_none_iff mm (p1, p2)).1 h2
        exact hno (heq ▸ List.mem_map_of_mem Prod.fst he)
      have hvalbound : ∀ e ∈ mm, e.2 < tid := fun e he => (hi4 e he).2.2.2
      have hgood' : GoodMM (mm ++ [((p1, p2), tid)]) := by
        intro e he
        rcases (by simpa using he) with h3 | h3
        · exact hgood e h3
        · rw [h3]
          exact ⟨hp1, hp2⟩
      have hextend : ∀ x ∈ seq, expand (mm ++ [((p1, p2), tid)]) x = expand mm x :=
        fun x hx => expand_extend' mm hgood _ tid hvalbound x (hi3 x hx)
      have hrv : rmLookup (mm ++ [((p1, p2), tid)]) tid = some (p1, p2) := by
        rw [rmLookup_append_single]
        simp
      have hexp : expand (mm ++ [((p1, p2), tid)]) tid =
          expand (mm ++ [((p1, p2), tid)]) p1 ++ expand (mm ++ [((p1, p2), tid)]) p2 :=
        expand_eq _ hgood' tid p1 p2 hrv
      refine ⟨hi1, ?_, ?_, ?_, ?_, ?_, ?_⟩
      · show tid0 ≤ tid + 1
        omega
      · intro x hx
        show x < tid + 1
        rcases merge_byte_pair_elem seq (p1, p2) tid x hx with h3 | h3
        · omega
        · have := hi3 x h3
          omega
      · intro e he
        show e.1.1 < e.2 ∧ e.1.2 < e.2 ∧ tid0 ≤ e.2 ∧ e.2 < tid + 1
        rcases (by simpa using he) with h3 | h3
        · have := hi4 e h3
          exact ⟨this.1, this.2.1, this.2.2.1, by omega⟩
        · rw [h3]
          exact ⟨hp1, hp2, hi2, by omega⟩
      · rw [List.pairwise_append]
        exact ⟨hi5, by simp, fun a ha b hb => by
          simp only [List.mem_singleton] at hb
          rw [hb]
          exact hvalbound a ha⟩
      · rw [List.pairwise_append]
        exact ⟨hi6, by simp, fun a ha b hb => by
          simp only [List.mem_singleton] at hb
          rw [hb]
          exact hkeys a ha⟩
      · show (merge_byte_pair seq (p1, p2) tid).flatMap (expand (mm ++ [((p1, p2), tid)])) = orig
        rw [merge_byte_pair_flatMap _ seq (p1, p2) tid hexp]
        rw [flatMap_congr_on seq _ _ hextend]
        exact hi7

theorem trainInv_loop (orig : List Nat) (tid0 : Nat) (n : Nat) :
    ∀ st, TrainInv orig tid0 st → TrainInv orig tid0 (bpeLoop n st) := by
  induction n with
  | zero => intro st hinv; exact hinv
  | succ n ih =>
    intro st hinv
    match h : bpeStep st with
    | none => rw [bpeLoop_fix st h]; exact hinv
    | some st' =>
      have hs : bpeLoop (n + 1) st = bpeLoop n st' := by simp [bpeLoop, h]
      rw [hs]
      exact ih st' (trainInv_step orig tid0 st st' hinv h)

theorem byte_pair_encoding_spec (texts : List (List Nat)) (n : Nat) (enc : List Nat)
    (mm : MergeMap) (h : byte_pair_encoding texts n = some (enc, mm)) :
    ∃ m tid, pyMaxList (joinedBytes texts) = some m ∧
      bpeLoop n (joinedBytes texts, [], m + 1) = (enc, mm, tid) ∧
      TrainInv (joinedBytes texts) (m + 1) (enc, mm, tid) := by
  unfold byte_pair_encoding at h
  match hm : pyMaxList (joinedBytes texts) with
  | none => simp [hm] at h
  | some m =>
    simp only [hm, Option.some_inj] at h
    rw [Prod.mk.injEq] at h
    obtain ⟨h1, h2⟩ := h
    refine ⟨m, (bpeLoop n (joinedBytes texts, [], m + 1)).2.2, rfl, ?_, ?_⟩
    · rw [← h1, ← h2]
    · have hinit : TrainInv (joinedBytes texts) (m + 1) (joinedBytes texts, [], m + 1) :=
        trainInv_init _ _ (by omega)
          (fun b hb => by have := pyMaxList_spec _ m hm b hb; omega)
      have := trainInv_loop _ _ n _ hinit
      rw [← h1, ← h2]
      exact this

/-! ### Properties of the decoder -/

/-- Weight bounding the number of stack-loop iterations: processing token
`t` either removes weight `3 ^ t ≥ 1` or replaces it by `3 ^ a + 3 ^ b`
with `a, b < t`, which is strictly smaller. -/
def stackWeight (stack : List Nat) : Nat := (stack.map (fun t => 3 ^ t)).sum

theorem decodeLoop_expand (mm : MergeMap) (hg : GoodMM mm) :
    ∀ (n : Nat) (stack acc : List Nat), stackWeight stack ≤ n →
      decodeLoop mm n stack acc = some (acc ++ stack.flatMap (expand mm)) := by
  intro n
  induction n with
  | zero =>
    intro stack acc h
    match stack with
    | [] => simp [decodeLoop]
    | t :: rest =>
      exfalso
      have hpos : 0 < 3 ^ t := Nat.pos_pow_of_pos t (by norm_num)
      have : stackWeight (t :: rest) = 3 ^ t + stackWeight rest := by
        simp [stackWeight]
      omega
  | succ n ih =>
    intro stack acc h
    match stack with
    | [] => simp [decodeLoop]
    | t :: rest =>
      have hw : stackWeight (t :: rest) = 3 ^ t + stackWeight rest := by
        simp [stackWeight]
      match hr : rmLookup mm t with
      | some (a, b) =>
        have hab := hg _ (rmLookup_mem mm t (a, b) hr)
        simp only at hab
        simp only [decodeLoop, hr]
        have hpow : 3 ^ a + 3 ^ b + 1 ≤ 3 ^ t := by
          obtain ⟨t', rfl⟩ : ∃ t', t = t' + 1 := ⟨t - 1, by omega⟩
          have ha : 3 ^ a ≤ 3 ^ t' := Nat.pow_le_pow_right (by norm_num) (by omega)
          have hb : 3 ^ b ≤ 3 ^ t' := Nat.pow_le_pow_right (by norm_num) (by omega)
          have hp : 0 < 3 ^ t' := Nat.pos_pow_of_pos t' (by norm_num)
          have : 3 ^ (t' + 1) = 3 * 3 ^ t' := by ring
          omega
        have hw' : stackWeight (a :: b :: rest) ≤ n := by
          have : stackWeight (a :: b :: rest) = 3 ^ a + (3 ^ b + stackWeight rest) := by
            simp [stackWeight]
          omega
        rw [ih (a :: b :: rest) acc hw']
        rw [List.flatMap_cons, List.flatMap_cons, List.flatMap_cons,
          expand_eq mm hg t a b hr]
        simp [List.append_assoc]
      | none =>
        simp only [decodeLoop, hr]
        have hpos : 0 < 3 ^ t := Nat.pos_pow_of_pos t (by norm_num)
        rw [ih rest (acc ++ [t]) (by omega)]
        rw [List.flatMap_cons, expand_raw mm t hr]
        simp [List.append_assoc]

theorem decodeLoop_nil_mm :
    ∀ (fuel : Nat) (stack acc : List Nat), stack.length ≤ fuel →
      decodeLoop [] fuel stack acc = some (acc ++ stack) := by
  intro fuel
  induction fuel with
  | zero =>
    intro stack acc h
    match stack with
    | [] => simp [decodeLoop]
    | t :: rest => simp at h
  | succ n ih =>
    intro stack acc h
    match stack with
    | [] => simp [decodeLoop]
    | t :: rest =>
      have hr : rmLookup ([] : MergeMap) t = none := rfl
      simp only [decodeLoop, hr]
      rw [ih rest (acc ++ [t]) (by simpa using h)]
      simp

theorem decodeLoop_keeps_undecodable (mm : MergeMap) (t : Nat) (ht : rmLookup mm t = none) :
    ∀ (fuel : Nat) (stack acc seq : List Nat),
      decodeLoop mm fuel stack acc = some seq → (t ∈ stack ∨ t ∈ acc) → t ∈ seq := by
  intro fuel
  induction fuel with
  | zero =>
    intro stack acc seq h hmem
    match stack with
    | [] =>
      simp only [decodeLoop, Option.some_inj] at h
      rw [← h]
      rcases hmem with h1 | h1
      · simp at h1
      · exact h1
    | tok :: rest => simp [decodeLoop] at h
  | succ n ih =>
    intro stack acc seq h hmem
    match stack with
    | [] =>
      simp only [decodeLoop, Option.some_inj] at h
      rw [← h]
      rcases hmem with h1 | h1
      · simp at h1
      · exact h1
    | tok :: rest =>
      match hr : rmLookup mm tok with
      | some (a, b) =>
        simp only [decodeLoop, hr] at h
        refine ih (a :: b :: rest) acc seq h ?_
        rcases hmem with h1 | h1
        · rcases (by simpa using h1) with h2 | h2
          · subst h2
            rw [ht] at hr
            exact absurd hr (by simp)
          · left
            simp [h2]
        · right; exact h1
      | none =>
        simp only [decodeLoop, hr] at h
        refine ih rest (acc ++ [tok]) seq h ?_
        rcases hmem with h1 | h1
        · rcases (by simpa using h1) with h2 | h2
          · subst h2
            right
            simp
          · left; exact h2
        · right
          simp [h1]

/-! ### The joined corpus -/

theorem ValidStr_append (s t : List Nat) (hs : ValidStr s) (ht : ValidStr t) :
    ValidStr (s ++ t) := by
  intro c hc
  rcases List.mem_append.1 hc with h | h
  · exact hs c h
  · exact ht c h

theorem ValidStr_SEP : ValidStr SEP_TOKEN := by decide

theorem ValidStr_intercalate (B : List (List Nat)) (h : ∀ b ∈ B, ValidStr b) :
    ValidStr (List.intercalate SEP_TOKEN B) := by
  induction B with
  | nil => intro c hc; simp [List.intercalate] at hc
  | cons b B' ih =>
    match B' with
    | [] =>
      rw [intercalate_single]
      exact h b (by simp)
    | b2 :: T =>
      rw [intercalate_cons_cons]
      exact ValidStr_append _ _ (ValidStr_append _ _ (h b (by simp)) ValidStr_SEP)
        (ih (fun x hx => h x (by simp [hx])))

theorem joinedBytes_eq (texts : List (List Nat)) :
    joinedBytes texts = utf8Encode (List.intercalate SEP_TOKEN texts) := by
  induction texts with
  | nil => rfl
  | cons b B' ih =>
    match B' with
    | [] =>
      unfold joinedBytes
      rw [List.map_cons, List.map_nil, intercalate_single, intercalate_single]
    | b2 :: T =>
      unfold joinedBytes at ih ⊢
      rw [List.map_cons, List.map_cons, intercalate_cons_cons, intercalate_cons_cons,
        utf8Encode_append, utf8Encode_append]
      rw [show List.intercalate SEP_TOKEN_BYTES (utf8Encode b2 :: T.map utf8Encode) =
        List.intercalate SEP_TOKEN_BYTES ((b2 :: T).map utf8Encode) from by rw [List.map_cons]]
      rw [ih]
      rfl

theorem maxByVal_freq_mem_zip (seq : List Nat) (p : Nat × Nat) (c : Nat)
    (h : maxByVal (get_byte_pair_frequency seq) = some (p, c)) :
    (seq.zip seq.tail).count p = c ∧ 0 < c ∧ p ∈ seq.zip seq.tail := by
  have hpmem := (maxByVal_spec _ _ h).1
  have hplook := mmLookup_of_mem (get_byte_pair_frequency_keys_nodup seq) hpmem
  rw [mmLookup_get_byte_pair_frequency] at hplook
  by_cases hc : (seq.zip seq.tail).count p = 0
  · simp [hc] at hplook
  · rw [if_neg hc] at hplook
    have hcc : (seq.zip seq.tail).count p = c := by simpa using hplook
    exact ⟨hcc, by omega, List.count_pos_iff.1 (by omega)⟩

/-! ### Counting separator occurrences for the splitter -/

/-- The number of positions of `s` at which the separator occurs (the `k` of
the spec's "k occurrences of the separator"). -/
def sepOccCount (s : List Nat) : Nat :=
  ((List.range s.length).filter (fun i => SEP_TOKEN.isPrefixOf (s.drop i))).length

theorem sepOccCount_cons (c : Nat) (rest : List Nat) :
    sepOccCount (c :: rest) =
      (if SEP_TOKEN.isPrefixOf (c :: rest) then 1 else 0) + sepOccCount rest := by
  unfold sepOccCount
  rw [List.length_cons, List.range_succ_eq_map, List.filter_cons]
  simp only [List.drop_zero, List.filter_map, List.length_map, Function.comp_def,
    List.drop_succ_cons]
  by_cases hp : SEP_TOKEN.isPrefixOf (c :: rest)
  · simp [hp]
    omega
  · simp [hp]

theorem sep_isPrefixOf_drop_false (k : Nat) (h1 : 1 ≤ k) (h2 : k < 5) (r : List Nat) :
    ¬ (SEP_TOKEN.isPrefixOf (SEP_TOKEN.drop k ++ r) = true) := by
  intro hc
  have hpre : SEP_TOKEN <+: (SEP_TOKEN.drop k ++ r) := by simpa using hc
  exact sep_not_prefix_sepdrop k h1 h2 r hpre

theorem sepOccCount_sep (t : List Nat) :
    sepOccCount (91 :: 83 :: 69 :: 80 :: 93 :: t) = 1 + sepOccCount t := by
  have h0 : SEP_TOKEN.isPrefixOf (91 :: 83 :: 69 :: 80 :: 93 :: t) = true := by
    simp [SEP_TOKEN, List.isPrefixOf]
  have h1 : ¬ (SEP_TOKEN.isPrefixOf (83 :: 69 :: 80 :: 93 :: t) = true) :=
    sep_isPrefixOf_drop_false 1 (by norm_num) (by norm_num) t
  have h2 : ¬ (SEP_TOKEN.isPrefixOf (69 :: 80 :: 93 :: t) = true) :=
    sep_isPrefixOf_drop_false 2 (by norm_num) (by norm_num) t
  have h3 : ¬ (SEP_TOKEN.isPrefixOf (80 :: 93 :: t) = true) :=
    sep_isPrefixOf_drop_false 3 (by norm_num) (by norm_num) t
  have h4 : ¬ (SEP_TOKEN.isPrefixOf (93 :: t) = true) :=
    sep_isPrefixOf_drop_false 4 (by norm_num) (by norm_num) t
  rw [sepOccCount_cons, sepOccCount_cons, sepOccCount_cons, sepOccCount_cons, sepOccCount_cons]
  rw [if_pos h0, if_neg h1, if_neg h2, if_neg h3, if_neg h4]
  omega

theorem splitGo_length (n : Nat) :
    ∀ (s cur : List Nat), s.length ≤ n →
      (split_on_sep_go s cur).length = sepOccCount s + 1 := by
  induction n with
  | zero =>
    intro s cur h
    match s with
    | [] => rfl
    | c :: rest => simp at h
  | succ n ih =>
    intro s cur h
    match s with
    | [] => rfl
    | c :: rest =>
      by_cases hp : SEP_TOKEN <+: (c :: rest)
      · obtain ⟨t, ht⟩ := hp
        have hc : 91 :: 83 :: 69 :: 80 :: 93 :: t = c :: rest := ht
        have hcc : c = 91 ∧ rest = 83 :: 69 :: 80 :: 93 :: t := by
          have := hc.symm
          simp only [List.cons.injEq] at this
          exact this
        obtain ⟨rfl, rfl⟩ := hcc
        rw [splitGo_sep, sepOccCount_sep]
        have hlen : t.length ≤ n := by
          simp only [List.length_cons] at h
          omega
        simp only [List.length_cons]
        rw [ih t [] hlen]
        omega
      · rw [splitGo_cons c rest cur hp]
        have hlen : rest.length ≤ n := by
          simp only [List.length_cons] at h
          omega
        rw [ih rest (cur ++ [c]) hlen, sepOccCount_cons, if_neg (by simpa using hp)]
        omega

theorem split_on_sep_length (s : List Nat) :
    (split_on_sep s).length = sepOccCount s + 1 :=
  splitGo_length s.length s [] (Nat.le_refl _)

/-! ### The claims -/

/-- C4: `merge_byte_pair` scans left to right; at each position where the
current and next element equal the pair it emits the new id and advances two
positions, otherwise it emits the current element and advances one; in
particular `merge_byte_pair [7, 7, 7] (7, 7) 300 = [300, 7]` (non-overlapping,
leftmost-first). -/
theorem c4_merge_applier_rule :
    (∀ (p : Nat × Nat) (v : Nat), merge_byte_pair [] p v = []) ∧
    (∀ (a : Nat) (p : Nat × Nat) (v : Nat), merge_byte_pair [a] p v = [a]) ∧
    (∀ (b0 b1 : Nat) (rest : List Nat) (p : Nat × Nat) (v : Nat),
      merge_byte_pair (b0 :: b1 :: rest) p v =
        if (b0, b1) = p then v :: merge_byte_pair rest p v
        else b0 :: merge_byte_pair (b1 :: rest) p v) ∧
    (∀ (a v : Nat), merge_byte_pair [a, a, a] (a, a) v = [v, a]) ∧
    merge_byte_pair [7, 7, 7] (7, 7) 300 = [300, 7] := by
  refine ⟨fun p v => rfl, fun a p v => rfl, fun b0 b1 rest p v => rfl, fun a v => ?_, by decide⟩
  simp [merge_byte_pair]

/-- C5: whenever the learner selects a pair (`max(pairs, key=pairs.get)`
returns it), that pair's adjacent-pair count is positive and maximal among
all pairs of the current sequence; and one loop iteration reuses the
existing id of an already-mapped pair (allocating nothing) or otherwise
records the pair with the current fresh id and increments the counter. -/
theorem c5_selection_and_id_allocation (seq : List Nat) (p : Nat × Nat) (c : Nat)
    (h : maxByVal (get_byte_pair_frequency seq) = some (p, c)) :
    ((seq.zip seq.tail).count p = c ∧ 0 < c ∧
      ∀ q : Nat × Nat, (seq.zip seq.tail).count q ≤ c) ∧
    (∀ (mm : MergeMap) (tid : Nat),
      (∃ v, mmLookup mm p = some v ∧
        bpeStep (seq, mm, tid) = some (merge_byte_pair seq p v, mm, tid)) ∨
      (mmLookup mm p = none ∧
        bpeStep (seq, mm, tid) =
          some (merge_byte_pair seq p tid, mm ++ [(p, tid)], tid + 1))) := by
  obtain ⟨hc, hcpos, hmem⟩ := maxByVal_freq_mem_zip seq p c h
  have hmax := (maxByVal_spec _ _ h).2
  constructor
  · refine ⟨hc, hcpos, ?_⟩
    intro q
    by_cases hq : (seq.zip seq.tail).count q = 0
    · omega
    · have hlq : mmLookup (get_byte_pair_frequency seq) q =
          some ((seq.zip seq.tail).count q) := by
        rw [mmLookup_get_byte_pair_frequency, if_neg hq]
      have := hmax _ (mmLookup_mem _ q _ hlq)
      simpa using this
  · intro mm tid
    match h2 : mmLookup mm p with
    | some v =>
      left
      exact ⟨v, rfl, by simp [bpeStep, h, h2]⟩
    | none =>
      right
      exact ⟨rfl, by simp [bpeStep, h, h2]⟩

theorem c5_witness :
    (([5, 5, 5] : List Nat).zip ([5, 5, 5] : List Nat).tail).count (6, 6) ≤ 2 :=
  (c5_selection_and_id_allocation [5, 5, 5] (5, 5) 2 (by decide)).1.2.2 (6, 6)

/-- C6: `get_byte_pair_frequency` maps each adjacent pair
`(seq[i], seq[i+1])`, `i ∈ [0, len(seq) - 2]`, to its number of occurrences
(overlapping occurrences all counted), has no other entries, and is empty
when `len(seq) < 2`; in particular `count [5, 5, 5] = {(5, 5): 2}` and
`count [1] = {}`. -/
theorem c6_pair_frequency_counter :
    (∀ (seq : List Nat) (p : Nat × Nat),
      mmLookup (get_byte_pair_frequency seq) p =
        if (pairList seq).count p = 0 then none else some ((pairList seq).count p)) ∧
    (∀ seq : List Nat, seq.length < 2 → get_byte_pair_frequency seq = []) ∧
    get_byte_pair_frequency [5, 5, 5] = [((5, 5), 2)] ∧
    get_byte_pair_frequency [1] = [] := by
  refine ⟨?_, ?_, by decide, by decide⟩
  · intro seq p
    rw [pairList_eq_zip]
    exact mmLookup_get_byte_pair_frequency seq p
  · intro seq hlen
    exact (get_byte_pair_frequency_eq_nil_iff seq).2 (by omega)

theorem c6_witness : get_byte_pair_frequency [9] = [] :=
  c6_pair_frequency_counter.2.1 [9] (by decide)

/-- C7: when the working sequence has length at most one, every remaining
training iteration is a no-op (the loop breaks, which is not an error);
the returned merge map never has more than `num_merges` entries; and
training any corpus whose joined byte sequence has exactly two bytes with
`num_merges = 1000` succeeds and produces at most one merge. -/
theorem c7_exhausted_pairs_termination :
    (∀ (seq : List Nat) (mm : MergeMap) (tid n : Nat), seq.length ≤ 1 →
      bpeLoop n (seq, mm, tid) = (seq, mm, tid)) ∧
    (∀ (texts : List (List Nat)) (n : Nat) (enc : List Nat) (mm : MergeMap),
      byte_pair_encoding texts n = some (enc, mm) → mm.length ≤ n) ∧
    (∀ (texts : List (List Nat)) (b0 b1 : Nat), joinedBytes texts = [b0, b1] →
      ∃ enc mm, byte_pair_encoding texts 1000 = some (enc, mm) ∧ mm.length ≤ 1) := by
  refine ⟨?_, ?_, ?_⟩
  · intro seq mm tid n hlen
    exact bpeLoop_fix _ (bpeStep_none_of_short (seq, mm, tid) hlen) n
  · intro texts n enc mm h
    obtain ⟨m, tid, hm, hloop, hinv⟩ := byte_pair_encoding_spec texts n enc mm h
    have := bpeLoop_mm_length n (joinedBytes texts, [], m + 1)
    rw [hloop] at this
    simpa using this
  · intro texts b0 b1 hjoin
    have hpm : pyMaxList [b0, b1] = some (max b0 b1) := by
      simp [pyMaxList]
    have hfreq : get_byte_pair_frequency [b0, b1] = [((b0, b1), 1)] := by
      unfold get_byte_pair_frequency
      rw [show ([b0, b1] : List Nat).length - 1 = 1 from rfl,
        show List.range 1 = [0] from rfl]
      simp [bumpPair]
    have hstep : bpeStep ([b0, b1], ([] : MergeMap), max b0 b1 + 1) =
        some ([max b0 b1 + 1], [((b0, b1), max b0 b1 + 1)], max b0 b1 + 2) := by
      unfold bpeStep
      simp [hfreq, maxByVal, mmLookup, merge_byte_pair]
    have hloop : bpeLoop 1000 ([b0, b1], ([] : MergeMap), max b0 b1 + 1) =
        ([max b0 b1 + 1], [((b0, b1), max b0 b1 + 1)], max b0 b1 + 2) := by
      rw [show (1000 : Nat) = 1 + 999 from by norm_num, bpeLoop_add]
      have hb1 : bpeLoop 1 ([b0, b1], ([] : MergeMap), max b0 b1 + 1) =
          ([max b0 b1 + 1], [((b0, b1), max b0 b1 + 1)], max b0 b1 + 2) := by
        simp [bpeLoop, hstep]
      rw [hb1]
      exact bpeLoop_fix _ (bpeStep_none_of_short _ (by simp)) 999
    refine ⟨[max b0 b1 + 1], [((b0, b1), max b0 b1 + 1)], ?_, by simp⟩
    unfold byte_pair_encoding
    simp only [hjoin, hpm, hloop]

theorem c7_witness :
    ∃ enc mm, byte_pair_encoding [[97, 98]] 1000 = some (enc, mm) ∧ mm.length ≤ 1 :=
  c7_exhausted_pairs_termination.2.2 [[97, 98]] 97 98 (by decide)

/-- C10: if the pair occurs at no adjacent position the applier returns its
input unchanged; the output length always equals the input length minus the
number of non-overlapping left-to-right occurrences; if the pair occurs at
least once the output is strictly shorter; hence every executed training
iteration (one whose pair the frequency maximum returned) strictly shortens
the working sequence. -/
theorem c10_applier_identity_progress :
    (∀ (seq : List Nat) (p : Nat × Nat) (v : Nat),
      p ∉ seq.zip seq.tail → merge_byte_pair seq p v = seq) ∧
    (∀ (seq : List Nat) (p : Nat × Nat) (v : Nat),
      (merge_byte_pair seq p v).length + nolCount seq p = seq.length) ∧
    (∀ (seq : List Nat) (p : Nat × Nat) (v : Nat),
      p ∈ seq.zip seq.tail → (merge_byte_pair seq p v).length < seq.length) ∧
    (∀ (seq : List Nat) (p : Nat × Nat) (c v : Nat),
      maxByVal (get_byte_pair_frequency seq) = some (p, c) →
      (merge_byte_pair seq p v).length < seq.length) := by
  have hshort : ∀ (seq : List Nat) (p : Nat × Nat) (v : Nat),
      p ∈ seq.zip seq.tail → (merge_byte_pair seq p v).length < seq.length := by
    intro seq p v hmem
    have h1 := merge_byte_pair_length seq p v
    have h2 := nolCount_pos seq p hmem
    omega
  refine ⟨merge_byte_pair_eq_self, merge_byte_pair_length, hshort, ?_⟩
  intro seq p c v h
  exact hshort seq p v (maxByVal_freq_mem_zip seq p c h).2.2

theorem c10_witness : (merge_byte_pair [5, 5] (5, 5) 77).length < ([5, 5] : List Nat).length :=
  c10_applier_identity_progress.2.2.1 [5, 5] (5, 5) 77 (by decide)

/-- C9: decoding a sequence of raw byte values that form valid UTF-8 with an
empty merge map returns exactly the UTF-8 decoding of those bytes (the stack
loop finishes within `len` iterations and no error is raised). -/
theorem c9_decode_unencoded (bs s : List Nat) (h256 : ∀ b ∈ bs, b < 256)
    (hdec : utf8Decode bs = some s) :
    decode_byte_pair bs.length bs [] = some (Except.ok s) := by
  unfold decode_byte_pair
  rw [decodeLoop_nil_mm bs.length bs [] (Nat.le_refl _)]
  have hall : bs.all (fun b => decide (b < 256)) = true := by
    rw [List.all_eq_true]
    intro x hx
    simpa using h256 x hx
  simp only [List.nil_append, Option.map_some']
  rw [if_pos hall, hdec]

theorem c9_witness : decode_byte_pair 2 [104, 105] [] = some (Except.ok [104, 105]) :=
  c9_decode_unencoded [104, 105] [104, 105] (by decide) (by simp [utf8Decode])

theorem decodeLoop_out_undecodable (mm : MergeMap) :
    ∀ (fuel : Nat) (stack acc seq : List Nat),
      decodeLoop mm fuel stack acc = some seq →
      (∀ t ∈ acc, rmLookup mm t = none) → ∀ t ∈ seq, rmLookup mm t = none := by
  intro fuel
  induction fuel with
  | zero =>
    intro stack acc seq h hacc
    match stack with
    | [] =>
      simp only [decodeLoop, Option.some_inj] at h
      rw [← h]
      exact hacc
    | tok :: rest => simp [decodeLoop] at h
  | succ n ih =>
    intro stack acc seq h hacc
    match stack with
    | [] =>
      simp only [decodeLoop, Option.some_inj] at h
      rw [← h]
      exact hacc
    | tok :: rest =>
      match hr : rmLookup mm tok with
      | some (a, b) =>
        simp only [decodeLoop, hr] at h
        exact ih (a :: b :: rest) acc seq h hacc
      | none =>
        simp only [decodeLoop, hr] at h
        refine ih rest (acc ++ [tok]) seq h ?_
        intro t ht
        rcases List.mem_append.1 ht with h1 | h1
        · exact hacc t h1
        · rw [List.mem_singleton] at h1
          rw [h1]
          exact hr

/-- C3: if the decoder's stack loop finishes, its byte buffer consists
exactly of the tokens the expansion encountered outside the inverse map's
domain; any such token of value at least 256 — whether it was already in
the encoded input or was pushed as a pair constituent of a corrupted merge
map — makes `decode_byte_pair` raise `ValueError` (from `bytes(...)`); a
buffer that is not valid UTF-8 makes it raise `UnicodeDecodeError`; the two
errors are distinct and in neither case is an `ok` result (silent
truncation or replacement) returned. -/
theorem c3_decode_errors_surfaced (mm : MergeMap) (fuel : Nat) (enc seq : List Nat)
    (hloop : decodeLoop mm fuel enc [] = some seq) :
    DecodeError.valueError ≠ DecodeError.unicodeDecodeError ∧
    (∀ t ∈ seq, rmLookup mm t = none) ∧
    ((∃ t ∈ seq, 256 ≤ t) →
      decode_byte_pair fuel enc mm = some (Except.error DecodeError.valueError)) ∧
    ((∃ t ∈ enc, 256 ≤ t ∧ rmLookup mm t = none) →
      decode_byte_pair fuel enc mm = some (Except.error DecodeError.valueError)) ∧
    ((∀ b ∈ seq, b < 256) → utf8Decode seq = none →
      decode_byte_pair fuel enc mm = some (Except.error DecodeError.unicodeDecodeError)) := by
  have hout : ∀ t ∈ seq, rmLookup mm t = none :=
    decodeLoop_out_undecodable mm fuel enc [] seq hloop (by simp)
  have hv : (∃ t ∈ seq, 256 ≤ t) →
      decode_byte_pair fuel enc mm = some (Except.error DecodeError.valueError) := by
    rintro ⟨t, htseq, ht256⟩
    unfold decode_byte_pair
    rw [hloop]
    have hnall : ¬ (seq.all (fun b => decide (b < 256)) = true) := by
      rw [List.all_eq_true]
      intro hall
      have := hall t htseq
      simp at this
      omega
    simp only [Option.map_some']
    rw [if_neg hnall]
  refine ⟨by simp, hout, hv, ?_, ?_⟩
  · rintro ⟨t, htenc, ht256, htdom⟩
    exact hv ⟨t, decodeLoop_keeps_undecodable mm t htdom fuel enc [] seq hloop (Or.inl htenc),
      ht256⟩
  · intro h256 hdec
    have hall : seq.all (fun b => decide (b < 256)) = true := by
      rw [List.all_eq_true]
      intro x hx
      simpa using h256 x hx
    unfold decode_byte_pair
    rw [hloop]
    simp only [Option.map_some']
    rw [if_pos hall, hdec]

theorem c3_witness :
    decode_byte_pair 3 [400] [((300, 97), 400)] = some (Except.error DecodeError.valueError) :=
  (c3_decode_errors_surfaced [((300, 97), 400)] 3 [400] [300, 97] (by decide)).2.2.1
    ⟨300, by decide, by decide⟩

/-- C2 counterexample: training `["ab"]` for one merge allocates the id
`99 = max(byte_text) + 1`, which is not strictly greater than all raw byte
values (it is itself a byte value, less than 255): the claim's "strictly
greater than all raw byte values" fails on the code. -/
theorem c2_raw_byte_counterexample :
    byte_pair_encoding [[97, 98]] 1 = some ([99], [((97, 98), 99)]) ∧ 99 ≤ 255 := by
  constructor
  · decide
  · norm_num

/-- C2 (amended): after any training run the merge map's keys are unique,
its values are strictly increasing in insertion order, each value is
strictly greater than every byte value occurring in the initial joined
sequence (hence than all earlier-assigned ids), and the map of an earlier
iteration is always a prefix of the map of a later one — entries are never
lost. -/
theorem c2_merge_map_invariants (texts : List (List Nat)) (n : Nat) (enc : List Nat)
    (mm : MergeMap) (h : byte_pair_encoding texts n = some (enc, mm)) :
    List.Pairwise (fun e1 e2 => e1.1 ≠ e2.1) mm ∧
    List.Pairwise (fun e1 e2 => e1.2 < e2.2) mm ∧
    (∀ e ∈ mm, ∀ b ∈ joinedBytes texts, b < e.2) ∧
    (∀ m : Nat, pyMaxList (joinedBytes texts) = some m →
      ∀ k k' : Nat, k ≤ k' → k' ≤ n →
        (bpeLoop k (joinedBytes texts, [], m + 1)).2.1 <+:
            (bpeLoop k' (joinedBytes texts, [], m + 1)).2.1 ∧
          (bpeLoop k' (joinedBytes texts, [], m + 1)).2.1 <+: mm) := by
  obtain ⟨m, tid, hm, hloop, hinv⟩ := byte_pair_encoding_spec texts n enc mm h
  obtain ⟨hi1, hi2, hi3, hi4, hi5, hi6, hi7⟩ := hinv
  simp only at hi4 hi5 hi6
  refine ⟨hi6, hi5, ?_, ?_⟩
  · intro e he b hb
    have h1 := (hi4 e he).2.2.1
    have h2 := pyMaxList_spec _ m hm b hb
    omega
  · intro m' hm' k k' hk hk'
    have hmm : m' = m := by
      rw [hm] at hm'
      exact (Option.some_inj.1 hm').symm
    subst hmm
    refine ⟨bpeLoop_mm_mono k k' _ hk, ?_⟩
    have := bpeLoop_mm_mono k' n (joinedBytes texts, [], m' + 1) hk'
    rw [hloop] at this
    exact this

theorem c2_witness :
    List.Pairwise (fun e1 e2 => e1.1 ≠ e2.1) [((104, 105), 106)] ∧
    List.Pairwise (fun e1 e2 => e1.2 < e2.2) [((104, 105), 106)] ∧
    (∀ e ∈ [((104, 105), 106)], ∀ b ∈ joinedBytes [[104, 105]], b < e.2) ∧
    (∀ m : Nat, pyMaxList (joinedBytes [[104, 105]]) = some m →
      ∀ k k' : Nat, k ≤ k' → k' ≤ 2 →
        (bpeLoop k (joinedBytes [[104, 105]], [], m + 1)).2.1 <+:
            (bpeLoop k' (joinedBytes [[104, 105]], [], m + 1)).2.1 ∧
          (bpeLoop k' (joinedBytes [[104, 105]], [], m + 1)).2.1 <+: [((104, 105), 106)]) :=
  c2_merge_map_invariants [[104, 105]] 2 [106] [((104, 105), 106)] (by decide)

/-- C1 counterexample: for the block sequence `[""]` — which satisfies the
claim's preconditions (valid UTF-8, no block contains the separator) — the
pipeline does not return a decodable result at all: `max(byte_text)` raises
`ValueError` on the empty joined corpus, so the round trip fails for every
`num_merges`. -/
theorem c1_empty_corpus_counterexample :
    ValidStr [] ∧ ¬ SEP_TOKEN <:+: ([] : List Nat) ∧
    byte_pair_encoding [[]] 0 = none ∧ byte_pair_encoding [[]] 5000 = none := by
  refine ⟨by decide, by decide, by decide, by decide⟩

/-- C1 (amended): for every sequence of valid UTF-8 text blocks none of
which contains the separator, and whose joined corpus is nonempty, and for
every `num_merges`: training succeeds, the decode stack loop reproduces the
joined corpus bytes exactly, decoding raises no error and returns a string
whose split on the separator is exactly the original block sequence. -/
theorem c1_full_pipeline_round_trip (texts : List (List Nat)) (num_merges : Nat)
    (hvalid : ∀ b ∈ texts, ValidStr b)
    (hsep : ∀ b ∈ texts, ¬ SEP_TOKEN <:+: b)
    (hne : joinedBytes texts ≠ []) :
    ∃ enc mm fuel s,
      byte_pair_encoding texts num_merges = some (enc, mm) ∧
      decodeLoop mm fuel enc [] = some (joinedBytes texts) ∧
      decode_byte_pair fuel enc mm = some (Except.ok s) ∧
      split_on_sep s = texts := by
  have hbpe : ∃ enc mm, byte_pair_encoding texts num_merges = some (enc, mm) := by
    match hm : pyMaxList (joinedBytes texts) with
    | none =>
      exfalso
      apply hne
      match hj : joinedBytes texts with
      | [] => rfl
      | x :: xs => rw [hj] at hm; simp [pyMaxList] at hm
    | some m =>
      exact ⟨(bpeLoop num_merges (joinedBytes texts, [], m + 1)).1,
        (bpeLoop num_merges (joinedBytes texts, [], m + 1)).2.1, by
          unfold byte_pair_encoding
          simp only [hm]⟩
  obtain ⟨enc, mm, hbpe⟩ := hbpe
  obtain ⟨m, tid, hm, hloop, hinv⟩ := byte_pair_encoding_spec texts num_merges enc mm hbpe
  obtain ⟨hi1, hi2, hi3, hi4, hi5, hi6, hi7⟩ := hinv
  simp only at hi4 hi7
  have hgood : GoodMM mm := fun e he => ⟨(hi4 e he).1, (hi4 e he).2.1⟩
  have hdl : decodeLoop mm (stackWeight enc) enc [] = some (joinedBytes texts) := by
    rw [decodeLoop_expand mm hgood (stackWeight enc) enc [] (Nat.le_refl _)]
    rw [List.nil_append, hi7]
  have hjv : ValidStr (List.intercalate SEP_TOKEN texts) := ValidStr_intercalate texts hvalid
  have hj256 : ∀ b ∈ joinedBytes texts, b < 256 := by
    rw [joinedBytes_eq]
    exact utf8Encode_lt_256 _ hjv
  refine ⟨enc, mm, stackWeight enc, List.intercalate SEP_TOKEN texts, hbpe, hdl, ?_, ?_⟩
  · unfold decode_byte_pair
    rw [hdl]
    have hall : (joinedBytes texts).all (fun b => decide (b < 256)) = true := by
      rw [List.all_eq_true]
      intro x hx
      simpa using hj256 x hx
    have hud : utf8Decode (joinedBytes texts) = some (List.intercalate SEP_TOKEN texts) := by
      rw [joinedBytes_eq]
      exact utf8Decode_utf8Encode _ hjv
    simp only [Option.map_some']
    rw [if_pos hall, hud]
  · refine split_on_sep_intercalate texts ?_ hsep
    intro ht
    rw [ht] at hne
    exact hne rfl

theorem c1_round_trip_witness :
    ∃ enc mm fuel s,
      byte_pair_encoding [[97, 98], [97, 98]] 3 = some (enc, mm) ∧
      decodeLoop mm fuel enc [] = some (joinedBytes [[97, 98], [97, 98]]) ∧
      decode_byte_pair fuel enc mm = some (Except.ok s) ∧
      split_on_sep s = [[97, 98], [97, 98]] :=
  c1_full_pipeline_round_trip [[97, 98], [97, 98]] 3 (by decide) (by decide) (by decide)

/-- C8: the joiner inserts the separator's bytes only between consecutive
blocks (none before the first or after the last), all produced values are
bytes in 0–255 for valid input, and splitting any string with `k`
separator occurrences yields exactly `k + 1` pieces, including empty pieces
between adjacent separators. -/
theorem c8_corpus_framer_contract :
    (joinedBytes [] = [] ∧
      (∀ t : List Nat, joinedBytes [t] = utf8Encode t) ∧
      (∀ (t1 t2 : List Nat) (rest : List (List Nat)),
        joinedBytes (t1 :: t2 :: rest) =
          utf8Encode t1 ++ SEP_TOKEN_BYTES ++ joinedBytes (t2 :: rest))) ∧
    (∀ texts : List (List Nat), (∀ t ∈ texts, ValidStr t) →
      ∀ b ∈ joinedBytes texts, b < 256) ∧
    (∀ s : List Nat, (split_on_sep s).length = sepOccCount s + 1) ∧
    split_on_sep ([97] ++ SEP_TOKEN ++ SEP_TOKEN ++ [98]) = [[97], [], [98]] := by
  refine ⟨⟨rfl, ?_, ?_⟩, ?_, split_on_sep_length, by decide⟩
  · intro t
    unfold joinedBytes
    rw [List.map_cons, List.map_nil, intercalate_single]
  · intro t1 t2 rest
    unfold joinedBytes
    rw [List.map_cons, List.map_cons, intercalate_cons_cons]
  · intro texts hv b hb
    rw [joinedBytes_eq] at hb
    exact utf8Encode_lt_256 _ (ValidStr_intercalate texts hv) b hb

theorem c8_witness : (97 : Nat) < 256 :=
  c8_corpus_framer_contract.2.1 [[97]] (by decide) 97 (by decide)
